import Mathlib

/-!
Shallow embedding of the OBJ loader of `src/main.cpp`
(`Mesh` and `loadOBJ`, lines 39-92), for checking the design
specification's claims about the geometry parser and the edge extractor.

Text is modelled as `List Char` (a `std::string` is a character
sequence); a file is a `List Char` split into lines the way
`std::getline` does.  Floating-point vertex values are modelled as exact
rationals (the decimal reading of the token text); no claim under study
depends on IEEE rounding.  `unsigned long` / `unsigned int` arithmetic
is modelled on `Nat` with explicit reductions modulo `2^64` / `2^32`.
A thrown `std::stoul` exception (the only exception `loadOBJ` can
raise) is modelled by `Except.error`.
-/

/-- The two exceptions `std::stoul` can throw. -/
inductive ParseErr : Type where
  | invalidArgument : ParseErr
  | outOfRange : ParseErr
deriving DecidableEq

/-- `ULONG_MAX` on the 64-bit targets the program is built for. -/
def ULONG_MAX : ℕ := 2 ^ 64 - 1

/-- Modulus of `unsigned int` (32 bits). -/
def UINT_MOD : ℕ := 2 ^ 32

/-- Whitespace as classified by the default C locale (`isspace`),
used by `istream` extraction and `std::stoul`. -/
def isSpaceB (c : Char) : Bool :=
  c = ' ' || c = '\t' || c = '\n' || c = '\x0d' || c = '\x0b' || c = '\x0c'

/-- Decimal digit test. -/
def isDigitB (c : Char) : Bool :=
  '0' ≤ c && c ≤ '9'

/-- Value of a decimal digit run (most significant first). -/
def digitsToNat (ds : List Char) : ℕ :=
  ds.foldl (fun acc c => 10 * acc + (c.toNat - 48)) 0

/-- Model of `std::stoul(s)` (base 10): skip whitespace, optional sign,
longest digit run; `invalid_argument` when no digits, `out_of_range`
when the value exceeds `ULONG_MAX`; a `-` sign negates in `unsigned
long` arithmetic. -/
def stoul (s : List Char) : Except ParseErr ℕ :=
  let s1 := s.dropWhile isSpaceB
  let sgnRest : Bool × List Char :=
    match s1 with
    | '-' :: r => (true, r)
    | '+' :: r => (false, r)
    | _ => (false, s1)
  let ds := sgnRest.2.takeWhile isDigitB
  if ds.isEmpty then .error .invalidArgument
  else
    let v := digitsToNat ds
    if ULONG_MAX < v then .error .outOfRange
    else .ok (if sgnRest.1 then (2 ^ 64 - v % 2 ^ 64) % 2 ^ 64 else v)

/-- Exact rational value of a decimal float literal with sign `neg`,
mantissa digits worth `mant`, `fracLen` digits after the point, and
exponent `e` with sign `eneg`: `± mant · 10^(±e) / 10^fracLen`. -/
def decValue (neg : Bool) (mant : ℕ) (fracLen : ℕ) (eneg : Bool) (e : ℕ) : ℚ :=
  let num : ℤ := if neg then -(mant : ℤ) else (mant : ℤ)
  if eneg then mkRat num (10 ^ (fracLen + e))
  else mkRat (num * ((10 ^ e : ℕ) : ℤ)) (10 ^ fracLen)

/-- Model of one `ss >> f` float extraction: skip whitespace, then a
strtod-style decimal (sign, digits, optional fraction, optional
exponent), read exactly as a rational.  `none` models a failed
extraction. -/
def readFloat (s : List Char) : Option ℚ × List Char :=
  let s1 := s.dropWhile isSpaceB
  let sgnRest : Bool × List Char :=
    match s1 with
    | '-' :: r => (true, r)
    | '+' :: r => (false, r)
    | _ => (false, s1)
  let intd := sgnRest.2.takeWhile isDigitB
  let s3 := sgnRest.2.dropWhile isDigitB
  let fracRest : List Char × List Char :=
    match s3 with
    | '.' :: r => (r.takeWhile isDigitB, r.dropWhile isDigitB)
    | _ => ([], s3)
  if intd.isEmpty && fracRest.1.isEmpty then (none, s)
  else
    let mant := digitsToNat (intd ++ fracRest.1)
    match fracRest.2 with
    | c :: r =>
      if c = 'e' ∨ c = 'E' then
        let esgnRest : Bool × List Char :=
          match r with
          | '-' :: rr => (true, rr)
          | '+' :: rr => (false, rr)
          | _ => (false, r)
        let ed := esgnRest.2.takeWhile isDigitB
        if ed.isEmpty then (none, s)
        else
          (some (decValue sgnRest.1 mant fracRest.1.length esgnRest.1 (digitsToNat ed)),
            esgnRest.2.dropWhile isDigitB)
      else (some (decValue sgnRest.1 mant fracRest.1.length false 0), fracRest.2)
    | [] => (some (decValue sgnRest.1 mant fracRest.1.length false 0), [])

/-- Model of `float x, y, z; ss >> x >> y >> z;` on the text after
`"v "`.  In C++11 the first failing extraction writes `0` to its
operand and sets `failbit`; later extractions then do not run (their
operands stay uninitialized in C++ — modelled as `0` here; no theorem
below depends on those positions). -/
def read3Floats (s : List Char) : ℚ × ℚ × ℚ :=
  match readFloat s with
  | (none, _) => (0, 0, 0)
  | (some x, r1) =>
    match readFloat r1 with
    | (none, _) => (x, 0, 0)
    | (some y, r2) =>
      match readFloat r2 with
      | (none, _) => (x, y, 0)
      | (some z, _) => (x, y, z)

/-- Helper for `tokens`: reads the stream one character at a time,
carrying the (reversed) token under construction. -/
def tokensAux : List Char → List Char → List (List Char)
  | [], cur => if cur.isEmpty then [] else [cur.reverse]
  | c :: rest, cur =>
    if isSpaceB c then
      if cur.isEmpty then tokensAux rest [] else cur.reverse :: tokensAux rest []
    else tokensAux rest (c :: cur)

/-- Model of the `while (ss >> token)` tokenization of a face line:
maximal runs of non-whitespace characters, in order. -/
def tokens (s : List Char) : List (List Char) :=
  tokensAux s []

/-- `token = token.substr(0, token.find('/'))` step of the face-token
loop: keep the part before the first `/` (the whole token when there is
none). -/
def preSlash (t : List Char) : List Char :=
  t.takeWhile (fun c => c ≠ '/')

/-- One face token's contribution: `std::stoul(token) - 1` in
`unsigned long` arithmetic, then narrowed to `unsigned int` by
`face.push_back`. -/
def faceIndex (t : List Char) : Except ParseErr ℕ :=
  (stoul (preSlash t)).map (fun v => ((v + (2 ^ 64 - 1)) % 2 ^ 64) % UINT_MOD)

/-- The whole token loop of a face line: first `stoul` failure aborts
(the exception propagates out of `loadOBJ`). -/
def parseFace : List (List Char) → Except ParseErr (List ℕ)
  | [] => .ok []
  | t :: ts =>
    match faceIndex t with
    | .error e => .error e
    | .ok i =>
      match parseFace ts with
      | .error e => .error e
      | .ok rest => .ok (i :: rest)

/-- `if (a > b) std::swap(a, b);` — canonical (min,max) form of an
undirected edge. -/
def canonEdge (a b : ℕ) : ℕ × ℕ :=
  if b < a then (b, a) else (a, b)

/-- The cyclic-adjacency edge pairs of one face, in loop order:
`a = face[i], b = face[(i+1) % face.size()]`, canonicalized. -/
def faceEdges (face : List ℕ) : List (ℕ × ℕ) :=
  (List.range face.length).map
    (fun i => canonEdge (face.getD i 0) (face.getD ((i + 1) % face.length) 0))

/-- `std::pair<unsigned,unsigned>` ordering (lexicographic `<`),
the key order of the `edges` set. -/
def pairLt (p q : ℕ × ℕ) : Prop :=
  p.1 < q.1 ∨ (p.1 = q.1 ∧ p.2 < q.2)

instance (p q : ℕ × ℕ) : Decidable (pairLt p q) := by
  unfold pairLt
  infer_instance

/-- `std::set::insert` on the sorted duplicate-free list that models
the set's contents in key order. -/
def edgeInsert (p : ℕ × ℕ) : List (ℕ × ℕ) → List (ℕ × ℕ)
  | [] => [p]
  | q :: rest =>
    if pairLt p q then p :: q :: rest
    else if p = q then q :: rest
    else q :: edgeInsert p rest

/-- The mesh produced by the loader (`struct Mesh`, line 39; `color`
is a rational RGB triple). -/
structure Mesh : Type where
  vertices : List ℚ
  indices : List ℕ
  edgeIndices : List ℕ
  color : ℚ × ℚ × ℚ
deriving DecidableEq

instance {ε α : Type} [DecidableEq ε] [DecidableEq α] : DecidableEq (Except ε α)
  | .error a, .error b =>
    if h : a = b then .isTrue (by rw [h]) else .isFalse (fun hh => by cases hh; exact h rfl)
  | .error _, .ok _ => .isFalse (fun hh => by cases hh)
  | .ok _, .error _ => .isFalse (fun hh => by cases hh)
  | .ok a, .ok b =>
    if h : a = b then .isTrue (by rw [h]) else .isFalse (fun hh => by cases hh; exact h rfl)

/-- Loader state while scanning lines: the growing `mesh.vertices`,
`mesh.indices` and the `edges` set (as its sorted element list). -/
structure ObjState : Type where
  vertices : List ℚ
  indices : List ℕ
  edges : List (ℕ × ℕ)
deriving DecidableEq

/-- The face block (lines 72-81): emit the first three indices as one
triangle when the face has at least 3 tokens, and insert every
cyclic-adjacency pair into the edge set unconditionally. -/
def processFace (face : List ℕ) (s : ObjState) : ObjState :=
  { vertices := s.vertices
    indices :=
      if 3 ≤ face.length then
        s.indices ++ [face.getD 0 0, face.getD 1 0, face.getD 2 0]
      else s.indices
    edges := (faceEdges face).foldl (fun es p => edgeInsert p es) s.edges }

/-- Dispatch on one line (lines 53-82): `"v "` lines append three
extracted floats, `"f "` lines run the token loop then the face block,
anything else is ignored. -/
def processLine (s : ObjState) (line : List Char) : Except ParseErr ObjState :=
  if line.take 2 = ['v', ' '] then
    let xyz := read3Floats (line.drop 2)
    .ok { s with vertices := s.vertices ++ [xyz.1, xyz.2.1, xyz.2.2] }
  else if line.take 2 = ['f', ' '] then
    match parseFace (tokens (line.drop 2)) with
    | .error e => .error e
    | .ok face => .ok (processFace face s)
  else .ok s

/-- The `while (std::getline(file, line))` loop. -/
def processLines (s : ObjState) : List (List Char) → Except ParseErr ObjState
  | [] => .ok s
  | l :: ls =>
    match processLine s l with
    | .error e => .error e
    | .ok s' => processLines s' ls

/-- The flattening loop (lines 85-88): for each set element push
`edge.first` then `edge.second`. -/
def flattenEdges : List (ℕ × ℕ) → List ℕ
  | [] => []
  | p :: ps => p.1 :: p.2 :: flattenEdges ps

/-- `loadOBJ` (lines 46-92) on the file's line list: scan all lines,
flatten the edge set, and set `color = (0, 0, 1)`. -/
def loadOBJ (lines : List (List Char)) : Except ParseErr Mesh :=
  match processLines ⟨[], [], []⟩ lines with
  | .error e => .error e
  | .ok s =>
    .ok { vertices := s.vertices, indices := s.indices,
          edgeIndices := flattenEdges s.edges, color := (0, 0, 1) }

/-- Helper for `splitLines`, carrying the (reversed) line under
construction; `std::getline` at end of stream fails when nothing was
read, so a trailing newline produces no extra empty line. -/
def splitLinesAux : List Char → List Char → List (List Char)
  | [], cur => if cur.isEmpty then [] else [cur.reverse]
  | c :: rest, cur =>
    if c = '\n' then cur.reverse :: splitLinesAux rest []
    else splitLinesAux rest (c :: cur)

/-- `std::getline` splitting of a character stream into lines. -/
def splitLines (s : List Char) : List (List Char) :=
  splitLinesAux s []

/-- `loadOBJ` on the raw file text. -/
def loadOBJText (text : List Char) : Except ParseErr Mesh :=
  loadOBJ (splitLines text)

/-- A missing or unreadable path leaves the `ifstream` in a failed
state, so every `std::getline` call fails immediately and the line loop
runs zero times: loading behaves as on an empty line list. -/
def loadOBJMissingFile : Except ParseErr Mesh :=
  loadOBJ []

/-- Character list of a string literal (for concrete test inputs). -/
def chars (s : String) : List Char :=
  s.toList

/-- Adjacent disjoint pairs of a flat index list (stride 2), recovering
the edge list from `edgeIndices`. -/
def chunkPairs : List ℕ → List (ℕ × ℕ)
  | a :: b :: rest => (a, b) :: chunkPairs rest
  | _ => []

/-- Two index pairs denote the same undirected edge: equal as ordered
pairs or one is the swap of the other. -/
def sameUndirected (p q : ℕ × ℕ) : Prop :=
  (p.1 = q.1 ∧ p.2 = q.2) ∨ (p.1 = q.2 ∧ p.2 = q.1)

/-- Number of `"v "` lines of a file. -/
def countV (ls : List (List Char)) : ℕ :=
  (ls.filter (fun l => l.take 2 = ['v', ' '])).length

/-! ### Lemmas about the ordered edge set -/

/-- Index boundedness of the loader state. -/
def IdxOk (B : ℕ) (s : ObjState) : Prop :=
  (∀ i ∈ s.indices, i < B) ∧ ∀ p ∈ s.edges, p.1 < B ∧ p.2 < B

/-- Validity of a file for a vertex-count bound `B`: every face token's
leading 1-based integer parses and lies in `[1, B]`. -/
def faceTokenValidB (B : ℕ) (t : List Char) : Bool :=
  match stoul (preSlash t) with
  | .ok v => 1 ≤ v && v ≤ B
  | .error _ => false

/-- Validity of a whole file for a vertex-count bound `B` (decidable). -/
def FaceTokensValid (B : ℕ) (ls : List (List Char)) : Prop :=
  ∀ l ∈ ls, l.take 2 = ['f', ' '] →
    ∀ t ∈ tokens (l.drop 2), faceTokenValidB B t = true

instance (B : ℕ) (ls : List (List Char)) : Decidable (FaceTokensValid B ls) := by
  unfold FaceTokensValid
  infer_instance

/-! ### Concrete inputs used by witnesses and counterexamples -/

/-- The OBJ text of the spec's concrete scenario (§8, property 6). -/
def objTriangleText : List Char :=
  chars (r"v 0 0 0
v 1 0 0
v 0 1 0
f 1 2 3
")

/-- Two vertices and a face line `f 1 2 1` whose three tokens repeat a
vertex. -/
def linesRepeatedFace : List (List Char) :=
  [chars (r"v 0 0 0"), chars (r"v 1 0 0"), chars (r"f 1 2 1")]

/-- Two vertices and a two-token face line. -/
def linesShortFace : List (List Char) :=
  [chars (r"v 0 0 0"), chars (r"v 1 0 0"), chars (r"f 1 2")]

/-- One vertex line whose third number token is malformed. -/
def linesBadVertex : List (List Char) :=
  [chars (r"v 1 2 x")]

/-- One face line with a non-numeric token. -/
def linesBadFace : List (List Char) :=
  [chars (r"f x")]

/-- Three vertices and a face line containing the token `0`. -/
def linesZeroToken : List (List Char) :=
  [chars (r"v 0 0 0"), chars (r"v 1 0 0"), chars (r"v 0 1 0"), chars (r"f 0 2 3")]

/-- Four vertices and two faces sharing an edge, in file order. -/
def linesTwoFaces : List (List Char) :=
  [chars (r"v 0 0 0"), chars (r"v 1 0 0"), chars (r"v 0 1 0"), chars (r"v 0 0 1"),
    chars (r"f 1 2 3"), chars (r"f 2 3 4")]

/-- The same file with the two face lines in the opposite order. -/
def linesTwoFacesSwapped : List (List Char) :=
  [chars (r"f 2 3 4"), chars (r"v 0 0 0"), chars (r"v 1 0 0"), chars (r"v 0 1 0"),
    chars (r"v 0 0 1"), chars (r"f 1 2 3")]

/-- The mesh `loadOBJ` produces for `linesTwoFaces`. -/
def meshTwoFaces : Mesh :=
  { vertices := [0, 0, 0, 1, 0, 0, 0, 1, 0, 0, 0, 1], indices := [0, 1, 2, 1, 2, 3],
    edgeIndices := [0, 1, 0, 2, 1, 2, 1, 3, 2, 3], color := (0, 0, 1) }

/-- The mesh `loadOBJ` produces for `linesTwoFacesSwapped`. -/
def meshTwoFacesSwapped : Mesh :=
  { vertices := [0, 0, 0, 1, 0, 0, 0, 1, 0, 0, 0, 1], indices := [1, 2, 3, 0, 1, 2],
    edgeIndices := [0, 1, 0, 2, 1, 2, 1, 3, 2, 3], color := (0, 0, 1) }

/-! ### Lemmas -/

theorem pairLt_irrefl (p : ℕ × ℕ) : ¬ pairLt p p := by
  unfold pairLt
  omega

theorem pairLt_asymm {p q : ℕ × ℕ} (h : pairLt p q) : ¬ pairLt q p := by
  unfold pairLt at *
  omega

theorem pairLt_or_eq_or_gt (p q : ℕ × ℕ) : pairLt p q ∨ p = q ∨ pairLt q p := by
  unfold pairLt
  rcases p with ⟨a, b⟩
  rcases q with ⟨c, d⟩
  simp [Prod.ext_iff]
  omega

theorem pairLt_trans {p q r : ℕ × ℕ} (h₁ : pairLt p q) (h₂ : pairLt q r) : pairLt p r := by
  unfold pairLt at *
  omega

theorem mem_edgeInsert (p q : ℕ × ℕ) (es : List (ℕ × ℕ)) :
    q ∈ edgeInsert p es ↔ q = p ∨ q ∈ es := by
  induction es with
  | nil => simp [edgeInsert]
  | cons e rest ih =>
    by_cases hlt : pairLt p e
    · simp only [edgeInsert, if_pos hlt, List.mem_cons]
    · by_cases heq : p = e
      · subst heq
        have he : edgeInsert p (p :: rest) = p :: rest := by
          unfold edgeInsert
          rw [if_neg hlt, if_pos rfl]
        rw [he]
        simp only [List.mem_cons]
        tauto
      · simp only [edgeInsert, if_neg hlt, if_neg heq, List.mem_cons, ih]
        tauto

theorem sorted_edgeInsert (p : ℕ × ℕ) (es : List (ℕ × ℕ))
    (hs : es.Pairwise pairLt) : (edgeInsert p es).Pairwise pairLt := by
  induction es with
  | nil => simp [edgeInsert]
  | cons e rest ih =>
    rcases List.pairwise_cons.mp hs with ⟨he, hrest⟩
    by_cases hlt : pairLt p e
    · simp only [edgeInsert, if_pos hlt]
      refine List.pairwise_cons.mpr ⟨?_, hs⟩
      intro x hx
      rcases List.mem_cons.mp hx with h | h
      · exact h ▸ hlt
      · exact pairLt_trans hlt (he x h)
    · by_cases heq : p = e
      · subst heq
        have he : edgeInsert p (p :: rest) = p :: rest := by
          unfold edgeInsert
          rw [if_neg hlt, if_pos rfl]
        rw [he]
        exact hs
      · simp only [edgeInsert, if_neg hlt, if_neg heq]
        refine List.pairwise_cons.mpr ⟨?_, ih hrest⟩
        intro x hx
        rcases (mem_edgeInsert p x rest).mp hx with h | h
        · subst h
          rcases pairLt_or_eq_or_gt e x with h' | h' | h'
          · exact h'
          · exact absurd h'.symm heq
          · exact absurd h' hlt
        · exact he x h

theorem fst_le_snd_edgeInsert (p : ℕ × ℕ) (es : List (ℕ × ℕ))
    (hp : p.1 ≤ p.2) (hes : ∀ q ∈ es, q.1 ≤ q.2) :
    ∀ q ∈ edgeInsert p es, q.1 ≤ q.2 := by
  intro q hq
  rcases (mem_edgeInsert p q es).mp hq with h | h
  · exact h ▸ hp
  · exact hes q h

/-- The fold of `edgeInsert` over a pair list, as done by the face
loop's repeated `edges.insert(...)`. -/
theorem mem_foldl_edgeInsert (ps : List (ℕ × ℕ)) (es : List (ℕ × ℕ)) (q : ℕ × ℕ) :
    q ∈ ps.foldl (fun acc p => edgeInsert p acc) es ↔ q ∈ ps ∨ q ∈ es := by
  induction ps generalizing es with
  | nil => simp
  | cons p rest ih =>
    simp only [List.foldl_cons, ih, mem_edgeInsert, List.mem_cons]
    tauto

theorem sorted_foldl_edgeInsert (ps : List (ℕ × ℕ)) (es : List (ℕ × ℕ))
    (hs : es.Pairwise pairLt) :
    (ps.foldl (fun acc p => edgeInsert p acc) es).Pairwise pairLt := by
  induction ps generalizing es with
  | nil => exact hs
  | cons p rest ih => exact ih _ (sorted_edgeInsert p es hs)

theorem fst_le_snd_foldl_edgeInsert (ps : List (ℕ × ℕ)) (es : List (ℕ × ℕ))
    (hps : ∀ p ∈ ps, p.1 ≤ p.2) (hes : ∀ q ∈ es, q.1 ≤ q.2) :
    ∀ q ∈ ps.foldl (fun acc p => edgeInsert p acc) es, q.1 ≤ q.2 := by
  intro q hq
  rcases (mem_foldl_edgeInsert ps es q).mp hq with h | h
  · exact hps q h
  · exact hes q h

/-- Sorted duplicate-free lists with the same members are equal. -/
theorem sorted_mem_ext (es₁ es₂ : List (ℕ × ℕ))
    (h₁ : es₁.Pairwise pairLt) (h₂ : es₂.Pairwise pairLt)
    (hm : ∀ p, p ∈ es₁ ↔ p ∈ es₂) : es₁ = es₂ := by
  induction es₁ generalizing es₂ with
  | nil =>
    cases es₂ with
    | nil => rfl
    | cons e rest => exact absurd ((hm e).mpr (List.mem_cons_self e rest)) (by simp)
  | cons a r₁ ih =>
    cases es₂ with
    | nil => exact absurd ((hm a).mp (List.mem_cons_self a r₁)) (by simp)
    | cons b r₂ =>
      rcases List.pairwise_cons.mp h₁ with ⟨ha, hr₁⟩
      rcases List.pairwise_cons.mp h₂ with ⟨hb, hr₂⟩
      have hab : a = b := by
        rcases List.mem_cons.mp ((hm a).mp (List.mem_cons_self a r₁)) with h | h
        · exact h
        · rcases List.mem_cons.mp ((hm b).mpr (List.mem_cons_self b r₂)) with h' | h'
          · exact h'.symm
          · exact absurd (hb a h) (pairLt_asymm (ha b h'))
      subst hab
      have : r₁ = r₂ := by
        apply ih r₂ hr₁ hr₂
        intro p
        constructor
        · intro hp
          rcases List.mem_cons.mp ((hm p).mp (List.mem_cons_of_mem a hp)) with h | h
          · exact absurd (h ▸ ha p hp) (pairLt_irrefl p)
          · exact h
        · intro hp
          rcases List.mem_cons.mp ((hm p).mpr (List.mem_cons_of_mem a hp)) with h | h
          · exact absurd (h ▸ hb p hp) (pairLt_irrefl p)
          · exact h
      rw [this]

/-! ### Lemmas about flattening -/

theorem chunkPairs_flattenEdges (ps : List (ℕ × ℕ)) :
    chunkPairs (flattenEdges ps) = ps := by
  induction ps with
  | nil => rfl
  | cons p rest ih => simp [flattenEdges, chunkPairs, ih]

theorem mem_flattenEdges (ps : List (ℕ × ℕ)) (i : ℕ) :
    i ∈ flattenEdges ps ↔ ∃ p ∈ ps, i = p.1 ∨ i = p.2 := by
  induction ps with
  | nil => simp [flattenEdges]
  | cons p rest ih =>
    simp only [flattenEdges, List.mem_cons, ih]
    constructor
    · rintro (h | h | ⟨q, hq, hh⟩)
      · exact ⟨p, Or.inl rfl, Or.inl h⟩
      · exact ⟨p, Or.inl rfl, Or.inr h⟩
      · exact ⟨q, Or.inr hq, hh⟩
    · rintro ⟨q, hq | hq, hh⟩
      · subst hq
        tauto
      · exact Or.inr (Or.inr ⟨q, hq, hh⟩)

/-! ### Lemmas about face and line processing -/

theorem canonEdge_cases (a b : ℕ) :
    canonEdge a b = (a, b) ∨ canonEdge a b = (b, a) := by
  unfold canonEdge
  split
  · exact Or.inr rfl
  · exact Or.inl rfl

theorem canonEdge_fst_le_snd (a b : ℕ) : (canonEdge a b).1 ≤ (canonEdge a b).2 := by
  unfold canonEdge
  split <;> simp <;> omega

theorem faceEdges_fst_le_snd (face : List ℕ) :
    ∀ p ∈ faceEdges face, p.1 ≤ p.2 := by
  intro p hp
  rcases List.mem_map.mp hp with ⟨i, _, hi⟩
  exact hi ▸ canonEdge_fst_le_snd _ _

theorem getD_mem_of_lt (l : List ℕ) (i : ℕ) (h : i < l.length) : l.getD i 0 ∈ l := by
  rw [List.getD_eq_getElem (l := l) (d := 0) h]
  exact List.getElem_mem h

theorem faceEdges_mem_bound (face : List ℕ) (B : ℕ) (hf : ∀ i ∈ face, i < B) :
    ∀ p ∈ faceEdges face, p.1 < B ∧ p.2 < B := by
  intro p hp
  rcases List.mem_map.mp hp with ⟨i, hir, hi⟩
  have hlen : 0 < face.length := by
    rcases face with _ | _
    · simp [faceEdges] at hp
    · simp
  have h1 : face.getD i 0 ∈ face := getD_mem_of_lt face i (List.mem_range.mp hir)
  have h2 : face.getD ((i + 1) % face.length) 0 ∈ face :=
    getD_mem_of_lt face _ (Nat.mod_lt _ hlen)
  rcases canonEdge_cases (face.getD i 0) (face.getD ((i + 1) % face.length) 0) with h | h
  · rw [← hi, h]
    exact ⟨hf _ h1, hf _ h2⟩
  · rw [← hi, h]
    exact ⟨hf _ h2, hf _ h1⟩

/-- Inversion of one line step. -/
theorem processLine_ok (s : ObjState) (l : List Char) (s' : ObjState)
    (h : processLine s l = .ok s') :
    (l.take 2 = ['v', ' '] ∧
      s' = { s with vertices := s.vertices ++
        [(read3Floats (l.drop 2)).1, (read3Floats (l.drop 2)).2.1,
          (read3Floats (l.drop 2)).2.2] }) ∨
    (l.take 2 = ['f', ' '] ∧ ∃ face, parseFace (tokens (l.drop 2)) = .ok face ∧
      s' = processFace face s) ∨
    (l.take 2 ≠ ['v', ' '] ∧ l.take 2 ≠ ['f', ' '] ∧ s' = s) := by
  by_cases hv : l.take 2 = ['v', ' ']
  · left
    refine ⟨hv, ?_⟩
    simp only [processLine, if_pos hv, Except.ok.injEq] at h
    exact h.symm
  · by_cases hf : l.take 2 = ['f', ' ']
    · right; left
      refine ⟨hf, ?_⟩
      simp only [processLine, if_neg hv, if_pos hf] at h
      rcases hpf : parseFace (tokens (l.drop 2)) with e | face
      · rw [hpf] at h
        cases h
      · rw [hpf] at h
        simp only [Except.ok.injEq] at h
        exact ⟨face, rfl, h.symm⟩
    · right; right
      refine ⟨hv, hf, ?_⟩
      simp only [processLine, if_neg hv, if_neg hf, Except.ok.injEq] at h
      exact h.symm

/-- A `"v "` line is not an `"f "` line. -/
theorem take2_v_ne_f (l : List Char) (hv : l.take 2 = ['v', ' ']) :
    l.take 2 ≠ ['f', ' '] := by
  rw [hv]
  intro h
  cases h

/-- One-step unfolding of the line loop. -/
theorem processLines_cons (s : ObjState) (l : List Char) (ls : List (List Char)) :
    processLines s (l :: ls) =
      match processLine s l with
      | .error e => .error e
      | .ok s' => processLines s' ls := rfl

/-- The edge set stays sorted, with canonical pairs, across the scan. -/
theorem processLines_edges_inv (ls : List (List Char)) (s s' : ObjState)
    (h : processLines s ls = .ok s')
    (hs : s.edges.Pairwise pairLt ∧ ∀ p ∈ s.edges, p.1 ≤ p.2) :
    s'.edges.Pairwise pairLt ∧ ∀ p ∈ s'.edges, p.1 ≤ p.2 := by
  induction ls generalizing s with
  | nil =>
    simp only [processLines, Except.ok.injEq] at h
    exact h ▸ hs
  | cons l rest ih =>
    rw [processLines_cons] at h
    rcases hstep : processLine s l with e | s₁
    · rw [hstep] at h
      cases h
    · rw [hstep] at h
      refine ih s₁ h ?_
      rcases processLine_ok s l s₁ hstep with ⟨_, hs₁⟩ | ⟨_, face, _, hs₁⟩ | ⟨_, _, hs₁⟩
      · rw [hs₁]
        exact hs
      · rw [hs₁]
        constructor
        · exact sorted_foldl_edgeInsert _ _ hs.1
        · exact fst_le_snd_foldl_edgeInsert _ _ (faceEdges_fst_le_snd face) hs.2
      · rw [hs₁]
        exact hs

theorem countV_cons (l : List Char) (ls : List (List Char)) :
    countV (l :: ls) =
      (if l.take 2 = ['v', ' '] then 1 else 0) + countV ls := by
  by_cases h : l.take 2 = ['v', ' ']
  · simp [countV, List.filter_cons, h]
    omega
  · simp [countV, List.filter_cons, h]

/-- Every `"v "` line appends exactly three values, and nothing else
touches `vertices`. -/
theorem processLines_vertices_length (ls : List (List Char)) (s s' : ObjState)
    (h : processLines s ls = .ok s') :
    s'.vertices.length = s.vertices.length + 3 * countV ls := by
  induction ls generalizing s with
  | nil =>
    simp only [processLines, Except.ok.injEq] at h
    simp [← h, countV]
  | cons l rest ih =>
    rw [processLines_cons] at h
    rcases hstep : processLine s l with e | s₁
    · rw [hstep] at h
      cases h
    · rw [hstep] at h
      have htail := ih s₁ h
      rw [countV_cons]
      rcases processLine_ok s l s₁ hstep with ⟨hv, hs₁⟩ | ⟨hf, _, _, hs₁⟩ | ⟨hv, _, hs₁⟩
      · rw [htail, hs₁, if_pos hv]
        simp
        omega
      · rw [htail, hs₁, if_neg (fun hvl => take2_v_ne_f l hvl hf)]
        simp [processFace]
      · rw [htail, hs₁, if_neg hv]
        omega

/-- Which pairs end up in the edge set: exactly those contributed by
some successfully parsed `"f "` line, plus whatever was there before. -/
theorem processLines_edges_mem (ls : List (List Char)) (s s' : ObjState)
    (h : processLines s ls = .ok s') (p : ℕ × ℕ) :
    p ∈ s'.edges ↔ p ∈ s.edges ∨ ∃ l ∈ ls, l.take 2 = ['f', ' '] ∧
      ∃ face, parseFace (tokens (l.drop 2)) = .ok face ∧ p ∈ faceEdges face := by
  induction ls generalizing s with
  | nil =>
    simp only [processLines, Except.ok.injEq] at h
    simp [← h]
  | cons l rest ih =>
    rw [processLines_cons] at h
    rcases hstep : processLine s l with e | s₁
    · rw [hstep] at h
      cases h
    · rw [hstep] at h
      have htail := ih s₁ h
      rcases processLine_ok s l s₁ hstep with ⟨hv, hs₁⟩ | ⟨hf, face, hface, hs₁⟩ |
        ⟨hv, hfn, hs₁⟩
      · rw [htail, hs₁]
        simp only [List.mem_cons]
        constructor
        · rintro (hm | ⟨l', hl', hrest⟩)
          · exact Or.inl hm
          · exact Or.inr ⟨l', Or.inr hl', hrest⟩
        · rintro (hm | ⟨l', hl' | hl', hff, hrest⟩)
          · exact Or.inl hm
          · exact absurd (hl' ▸ hff) (take2_v_ne_f l hv)
          · exact Or.inr ⟨l', hl', hff, hrest⟩
      · rw [htail, hs₁]
        simp only [processFace, List.mem_cons]
        rw [mem_foldl_edgeInsert]
        constructor
        · rintro ((hm | hm) | ⟨l', hl', hrest⟩)
          · exact Or.inr ⟨l, Or.inl rfl, hf, face, hface, hm⟩
          · exact Or.inl hm
          · exact Or.inr ⟨l', Or.inr hl', hrest⟩
        · rintro (hm | ⟨l', hl' | hl', hff, face', hface', hrest⟩)
          · exact Or.inl (Or.inr hm)
          · subst hl'
            rw [hface] at hface'
            cases hface'
            exact Or.inl (Or.inl hrest)
          · exact Or.inr ⟨l', hl', hff, face', hface', hrest⟩
      · rw [htail, hs₁]
        simp only [List.mem_cons]
        constructor
        · rintro (hm | ⟨l', hl', hrest⟩)
          · exact Or.inl hm
          · exact Or.inr ⟨l', Or.inr hl', hrest⟩
        · rintro (hm | ⟨l', hl' | hl', hff, hrest⟩)
          · exact Or.inl hm
          · exact absurd (hl' ▸ hff) hfn
          · exact Or.inr ⟨l', hl', hff, hrest⟩

/-! ### Index-bound machinery for valid inputs -/

theorem stoul_ok_lt (s : List Char) (v : ℕ) (h : stoul s = .ok v) : v < 2 ^ 64 := by
  simp only [stoul] at h
  split at h
  · cases h
  · split at h
    · cases h
    · simp only [Except.ok.injEq] at h
      subst h
      split
      · exact Nat.mod_lt _ (by norm_num)
      · unfold ULONG_MAX at *
        omega

/-- A face token whose 1-based value `v` satisfies `1 ≤ v ≤ B` becomes
the 0-based index `(v - 1) % 2^32`, which is `< B`. -/
theorem faceIndex_ok_of_bounds (t : List Char) (v B : ℕ)
    (h : stoul (preSlash t) = .ok v) (h1 : 1 ≤ v) (hB : v ≤ B) :
    ∃ i, faceIndex t = .ok i ∧ i < B := by
  have hlt : v < 2 ^ 64 := stoul_ok_lt _ _ h
  refine ⟨((v + (2 ^ 64 - 1)) % 2 ^ 64) % UINT_MOD, ?_, ?_⟩
  · simp [faceIndex, h, Except.map]
  · have h64 : (2 : ℕ) ^ 64 = 18446744073709551616 := by norm_num
    have h32 : UINT_MOD = 4294967296 := by norm_num [UINT_MOD]
    rw [h64, h32]
    rw [h64] at hlt
    omega

theorem parseFace_ok_bounded (toks : List (List Char)) (B : ℕ)
    (hv : ∀ t ∈ toks, ∃ v, stoul (preSlash t) = .ok v ∧ 1 ≤ v ∧ v ≤ B) :
    ∃ face, parseFace toks = .ok face ∧ ∀ i ∈ face, i < B := by
  induction toks with
  | nil => exact ⟨[], rfl, by simp⟩
  | cons t ts ih =>
    rcases hv t (List.mem_cons_self t ts) with ⟨v, hst, h1, hB⟩
    rcases faceIndex_ok_of_bounds t v B hst h1 hB with ⟨i, hfi, hiB⟩
    rcases ih (fun t' ht' => hv t' (List.mem_cons_of_mem t ht')) with ⟨face, hpf, hfb⟩
    refine ⟨i :: face, ?_, ?_⟩
    · simp [parseFace, hfi, hpf]
    · intro j hj
      rcases List.mem_cons.mp hj with h | h
      · exact h ▸ hiB
      · exact hfb j h

theorem processFace_IdxOk (B : ℕ) (face : List ℕ) (s : ObjState)
    (hf : ∀ i ∈ face, i < B) (hs : IdxOk B s) : IdxOk B (processFace face s) := by
  constructor
  · intro i hi
    simp only [processFace] at hi
    split at hi
    · rename_i h3
      rcases List.mem_append.mp hi with h | h
      · exact hs.1 i h
      · have h0 : (0 : ℕ) < face.length := by omega
        have h1 : (1 : ℕ) < face.length := by omega
        have h2 : (2 : ℕ) < face.length := by omega
        simp only [List.mem_cons, List.not_mem_nil, or_false] at h
        rcases h with h | h | h
        · exact hf _ (h ▸ getD_mem_of_lt face 0 h0)
        · exact hf _ (h ▸ getD_mem_of_lt face 1 h1)
        · exact hf _ (h ▸ getD_mem_of_lt face 2 h2)
    · exact hs.1 i hi
  · intro p hp
    simp only [processFace] at hp
    rcases (mem_foldl_edgeInsert _ _ p).mp hp with h | h
    · exact faceEdges_mem_bound face B hf p h
    · exact hs.2 p h

theorem faceTokenValidB_spec (B : ℕ) (t : List Char)
    (h : faceTokenValidB B t = true) :
    ∃ v, stoul (preSlash t) = .ok v ∧ 1 ≤ v ∧ v ≤ B := by
  unfold faceTokenValidB at h
  rcases hst : stoul (preSlash t) with e | v <;> rw [hst] at h
  · cases h
  · simp at h
    exact ⟨v, rfl, h.1, h.2⟩

/-- On a valid file the scan succeeds and keeps every index below `B`. -/
theorem processLines_valid_ok (B : ℕ) (ls : List (List Char))
    (hv : FaceTokensValid B ls) :
    ∀ s : ObjState, IdxOk B s → ∃ s', processLines s ls = .ok s' ∧ IdxOk B s' := by
  induction ls with
  | nil => exact fun s hs => ⟨s, rfl, hs⟩
  | cons l rest ih =>
    intro s hs
    have hvrest : FaceTokensValid B rest := fun l' hl' => hv l' (List.mem_cons_of_mem l hl')
    by_cases hvl : l.take 2 = ['v', ' ']
    · have hstep : processLine s l =
          .ok { s with vertices := s.vertices ++
            [(read3Floats (l.drop 2)).1, (read3Floats (l.drop 2)).2.1,
              (read3Floats (l.drop 2)).2.2] } := by
        simp [processLine, hvl]
      rcases ih hvrest { s with vertices := s.vertices ++
          [(read3Floats (l.drop 2)).1, (read3Floats (l.drop 2)).2.1,
            (read3Floats (l.drop 2)).2.2] } ⟨hs.1, hs.2⟩ with ⟨s', hrest, hs'⟩
      exact ⟨s', by rw [processLines_cons, hstep]; exact hrest, hs'⟩
    · by_cases hfl : l.take 2 = ['f', ' ']
      · rcases parseFace_ok_bounded (tokens (l.drop 2)) B
            (fun t ht => faceTokenValidB_spec B t
              (hv l (List.mem_cons_self l rest) hfl t ht)) with ⟨face, hpf, hfb⟩
        have hstep : processLine s l = .ok (processFace face s) := by
          simp [processLine, hvl, hfl, hpf]
        rcases ih hvrest _ (processFace_IdxOk B face s hfb hs) with ⟨s', hrest, hs'⟩
        exact ⟨s', by rw [processLines_cons, hstep]; exact hrest, hs'⟩
      · have hstep : processLine s l = .ok s := by
          simp [processLine, hvl, hfl]
        rcases ih hvrest s hs with ⟨s', hrest, hs'⟩
        exact ⟨s', by rw [processLines_cons, hstep]; exact hrest, hs'⟩

/-! ### Error propagation (an uncaught `stoul` exception aborts the load) -/

theorem parseFace_error_of_bad_token (toks : List (List Char)) (t : List Char)
    (ht : t ∈ toks) (e : ParseErr) (he : faceIndex t = .error e) :
    ∃ e', parseFace toks = .error e' := by
  induction toks with
  | nil => cases ht
  | cons u ts ih =>
    rcases List.mem_cons.mp ht with h | h
    · subst h
      exact ⟨e, by simp [parseFace, he]⟩
    · rcases hfi : faceIndex u with e2 | i
      · exact ⟨e2, by simp [parseFace, hfi]⟩
      · rcases ih h with ⟨e', hpf⟩
        exact ⟨e', by simp [parseFace, hfi, hpf]⟩

theorem processLines_error_of_bad_face_line (ls : List (List Char)) (l : List Char)
    (hl : l ∈ ls) (hf : l.take 2 = ['f', ' '])
    (t : List Char) (ht : t ∈ tokens (l.drop 2)) (e : ParseErr)
    (he : faceIndex t = .error e) :
    ∀ s : ObjState, ∃ e', processLines s ls = .error e' := by
  induction ls with
  | nil => cases hl
  | cons u rest ih =>
    intro s
    rcases List.mem_cons.mp hl with h | h
    · subst h
      rcases parseFace_error_of_bad_token _ t ht e he with ⟨e', hpf⟩
      have hv : l.take 2 ≠ ['v', ' '] := fun hc => take2_v_ne_f l hc hf
      refine ⟨e', ?_⟩
      rw [processLines_cons]
      have hstep : processLine s l = .error e' := by
        simp [processLine, hv, hf, hpf]
      rw [hstep]
    · rcases hstep : processLine s u with e2 | s₁
      · exact ⟨e2, by rw [processLines_cons, hstep]⟩
      · rcases ih h s₁ with ⟨e', hrest⟩
        exact ⟨e', by rw [processLines_cons, hstep]; exact hrest⟩

/-! ### Edge count of a single face with pairwise-distinct indices -/

theorem pairLt_ne {p q : ℕ × ℕ} (h : pairLt p q) : p ≠ q := by
  intro hc
  exact pairLt_irrefl p (hc ▸ h)

theorem nodup_foldl_edgeInsert (ps : List (ℕ × ℕ)) :
    (ps.foldl (fun acc p => edgeInsert p acc) []).Nodup :=
  (sorted_foldl_edgeInsert ps [] (List.Pairwise.nil)).imp pairLt_ne

theorem length_foldl_edgeInsert_of_nodup (ps : List (ℕ × ℕ)) (hnd : ps.Nodup) :
    (ps.foldl (fun acc p => edgeInsert p acc) []).length = ps.length := by
  have hperm : (ps.foldl (fun acc p => edgeInsert p acc) []).Perm ps := by
    refine (List.perm_ext_iff_of_nodup (nodup_foldl_edgeInsert ps) hnd).mpr ?_
    intro q
    rw [mem_foldl_edgeInsert]
    simp
  exact hperm.length_eq

theorem canonEdge_eq_cases (a b c d : ℕ) (h : canonEdge a b = canonEdge c d) :
    (a = c ∧ b = d) ∨ (a = d ∧ b = c) := by
  unfold canonEdge at h
  split at h <;> split at h <;> simp [Prod.ext_iff] at h <;> omega

theorem nodup_getD_inj (l : List ℕ) (hnd : l.Nodup) (i j : ℕ)
    (hi : i < l.length) (hj : j < l.length) (h : l.getD i 0 = l.getD j 0) :
    i = j := by
  rw [List.getD_eq_getElem (l := l) (d := 0) hi,
    List.getD_eq_getElem (l := l) (d := 0) hj] at h
  exact (List.Nodup.getElem_inj_iff hnd).mp h

/-- A face of `n ≥ 3` pairwise-distinct indices yields `n` distinct
cyclic-adjacency edges. -/
theorem faceEdges_nodup (face : List ℕ) (h3 : 3 ≤ face.length)
    (hnd : face.Nodup) : (faceEdges face).Nodup := by
  unfold faceEdges
  refine List.Nodup.map_on ?_ (List.nodup_range _)
  intro i hi j hj hij
  rw [List.mem_range] at hi hj
  have hlen : 0 < face.length := by omega
  have hi1 : (i + 1) % face.length < face.length := Nat.mod_lt _ hlen
  have hj1 : (j + 1) % face.length < face.length := Nat.mod_lt _ hlen
  rcases canonEdge_eq_cases _ _ _ _ hij with ⟨h1, h2⟩ | ⟨h1, h2⟩
  · exact nodup_getD_inj face hnd i j hi hj h1
  · have e1 : i = (j + 1) % face.length := nodup_getD_inj face hnd _ _ hi hj1 h1
    have e2 : (i + 1) % face.length = j := nodup_getD_inj face hnd _ _ hi1 hj h2
    have m1 : (i + 1) % face.length = i + 1 ∨ ((i + 1) % face.length = 0 ∧ i + 1 = face.length) := by
      rcases Nat.lt_or_ge (i + 1) face.length with hc | hc
      · exact Or.inl (Nat.mod_eq_of_lt hc)
      · have : i + 1 = face.length := by omega
        exact Or.inr ⟨by rw [this, Nat.mod_self], this⟩
    have m2 : (j + 1) % face.length = j + 1 ∨ ((j + 1) % face.length = 0 ∧ j + 1 = face.length) := by
      rcases Nat.lt_or_ge (j + 1) face.length with hc | hc
      · exact Or.inl (Nat.mod_eq_of_lt hc)
      · have : j + 1 = face.length := by omega
        exact Or.inr ⟨by rw [this, Nat.mod_self], this⟩
    omega

theorem faceEdges_length (face : List ℕ) : (faceEdges face).length = face.length := by
  simp [faceEdges]

/-! ### Inversion of a successful load -/

theorem loadOBJ_ok_inv (ls : List (List Char)) (m : Mesh) (h : loadOBJ ls = .ok m) :
    ∃ s, processLines ⟨[], [], []⟩ ls = .ok s ∧
      m = { vertices := s.vertices, indices := s.indices,
            edgeIndices := flattenEdges s.edges, color := (0, 0, 1) } := by
  unfold loadOBJ at h
  rcases hp : processLines ⟨[], [], []⟩ ls with e | s <;> rw [hp] at h
  · cases h
  · simp only [Except.ok.injEq] at h
    exact ⟨s, rfl, h.symm⟩

theorem pairwise_not_sameUndirected (es : List (ℕ × ℕ))
    (hs : es.Pairwise pairLt) (hc : ∀ p ∈ es, p.1 ≤ p.2) :
    es.Pairwise (fun p q => ¬ sameUndirected p q) := by
  induction es with
  | nil => exact .nil
  | cons e rest ih =>
    rcases List.pairwise_cons.mp hs with ⟨he, hrest⟩
    refine List.pairwise_cons.mpr
      ⟨?_, ih hrest (fun p hp => hc p (List.mem_cons_of_mem e hp))⟩
    intro q hq hsame
    have h1 := hc e (List.mem_cons_self e rest)
    have h2 := hc q (List.mem_cons_of_mem e hq)
    have h3 := he q hq
    unfold sameUndirected at hsame
    unfold pairLt at h3
    omega

/-! ### The claims -/

/-- C1: for every input file, the `edgeIndices` sequence produced by
`loadOBJ` contains no duplicate undirected edge — no unordered pair
{a,b} appears twice among its stride-2 pairs, counting (a,b) and (b,a)
as the same pair, no matter how many faces share that edge. -/
theorem loadOBJ_edgeIndices_no_duplicate_edge (ls : List (List Char)) (m : Mesh)
    (h : loadOBJ ls = .ok m) :
    (chunkPairs m.edgeIndices).Pairwise (fun p q => ¬ sameUndirected p q) := by
  rcases loadOBJ_ok_inv ls m h with ⟨s, hp, hm⟩
  have hinv := processLines_edges_inv ls _ _ hp ⟨List.Pairwise.nil, by simp⟩
  rw [hm]
  show (chunkPairs (flattenEdges s.edges)).Pairwise _
  rw [chunkPairs_flattenEdges]
  exact pairwise_not_sameUndirected s.edges hinv.1 hinv.2

theorem loadOBJ_edgeIndices_no_duplicate_edge_witness :
    (chunkPairs (Mesh.edgeIndices
      { vertices := [0, 0, 0, 1, 0, 0, 0, 1, 0], indices := [0, 1, 2],
        edgeIndices := [0, 1, 0, 2, 1, 2], color := (0, 0, 1) })).Pairwise
      (fun p q => ¬ sameUndirected p q) :=
  loadOBJ_edgeIndices_no_duplicate_edge (splitLines objTriangleText) _ (by decide)

/-- C2: on a valid OBJ input — every face token's leading 1-based
integer lies between 1 and the number of `"v "` lines — loading
succeeds and every index placed into `indices` (the triangle list) and
`edgeIndices` is strictly below `vertices.length / 3`. -/
theorem loadOBJ_valid_input_indices_bounded (ls : List (List Char))
    (hv : FaceTokensValid (countV ls) ls) :
    ∃ m, loadOBJ ls = .ok m ∧
      (∀ i ∈ m.indices, i < m.vertices.length / 3) ∧
      ∀ i ∈ m.edgeIndices, i < m.vertices.length / 3 := by
  rcases processLines_valid_ok (countV ls) ls hv ⟨[], [], []⟩ ⟨by simp, by simp⟩
    with ⟨s, hok, hidx⟩
  have hlen : s.vertices.length = 3 * countV ls := by
    have := processLines_vertices_length ls _ _ hok
    simpa using this
  have hdiv : s.vertices.length / 3 = countV ls := by
    rw [hlen]
    omega
  refine ⟨{ vertices := s.vertices, indices := s.indices,
            edgeIndices := flattenEdges s.edges, color := (0, 0, 1) }, ?_, ?_, ?_⟩
  · simp [loadOBJ, hok]
  · intro i hi
    simpa [hdiv] using hidx.1 i hi
  · intro i hi
    rcases (mem_flattenEdges s.edges i).mp hi with ⟨p, hp, hi12⟩
    have := hidx.2 p hp
    rcases hi12 with h | h <;> simp [hdiv] <;> omega

theorem loadOBJ_valid_input_indices_bounded_witness :
    FaceTokensValid (countV (splitLines objTriangleText)) (splitLines objTriangleText) ∧
    ∃ m, loadOBJ (splitLines objTriangleText) = .ok m ∧
      (∀ i ∈ m.indices, i < m.vertices.length / 3) ∧
      ∀ i ∈ m.edgeIndices, i < m.vertices.length / 3 :=
  ⟨by decide, loadOBJ_valid_input_indices_bounded _ (by decide)⟩

/-- C3: the OBJ text `"v 0 0 0\nv 1 0 0\nv 0 1 0\nf 1 2 3\n"` parses to
`vertices = [0,0,0, 1,0,0, 0,1,0]`, `triangleIndices = [0,1,2]` and
`edgeIndices = [0,1, 0,2, 1,2]` (the three edges in sorted order). -/
theorem loadOBJ_concrete_triangle_scenario :
    loadOBJText objTriangleText =
      .ok { vertices := [0, 0, 0, 1, 0, 0, 0, 1, 0], indices := [0, 1, 2],
            edgeIndices := [0, 1, 0, 2, 1, 2], color := (0, 0, 1) } := by decide

/-- C4: `edgeIndices` is the deduplicated edge set flattened in sorted
order of its canonical (min,max) pairs, and it does not depend on the
order in which face lines appear in the file. -/
theorem loadOBJ_edgeIndices_sorted_and_face_order_independent
    (l₁ l₂ : List (List Char)) (m₁ m₂ : Mesh)
    (h₁ : loadOBJ l₁ = .ok m₁) (h₂ : loadOBJ l₂ = .ok m₂)
    (hperm : (l₁.filter (fun l => l.take 2 = ['f', ' '])).Perm
      (l₂.filter (fun l => l.take 2 = ['f', ' ']))) :
    m₁.edgeIndices = m₂.edgeIndices ∧
      (chunkPairs m₁.edgeIndices).Pairwise pairLt ∧
      ∀ p ∈ chunkPairs m₁.edgeIndices, p.1 ≤ p.2 := by
  rcases loadOBJ_ok_inv l₁ m₁ h₁ with ⟨s₁, hp₁, hm₁⟩
  rcases loadOBJ_ok_inv l₂ m₂ h₂ with ⟨s₂, hp₂, hm₂⟩
  have hinv₁ := processLines_edges_inv l₁ _ _ hp₁ ⟨List.Pairwise.nil, by simp⟩
  have hinv₂ := processLines_edges_inv l₂ _ _ hp₂ ⟨List.Pairwise.nil, by simp⟩
  have hmem : ∀ p, p ∈ s₁.edges ↔ p ∈ s₂.edges := by
    intro p
    rw [processLines_edges_mem l₁ _ _ hp₁ p, processLines_edges_mem l₂ _ _ hp₂ p]
    simp only [List.not_mem_nil, false_or]
    constructor
    · rintro ⟨l, hl, hf, hrest⟩
      have hfl : l ∈ l₂.filter (fun l => l.take 2 = ['f', ' ']) :=
        hperm.mem_iff.mp (List.mem_filter.mpr ⟨hl, by simp [hf]⟩)
      rcases List.mem_filter.mp hfl with ⟨hl₂, _⟩
      exact ⟨l, hl₂, hf, hrest⟩
    · rintro ⟨l, hl, hf, hrest⟩
      have hfl : l ∈ l₁.filter (fun l => l.take 2 = ['f', ' ']) :=
        hperm.mem_iff.mpr (List.mem_filter.mpr ⟨hl, by simp [hf]⟩)
      rcases List.mem_filter.mp hfl with ⟨hl₁, _⟩
      exact ⟨l, hl₁, hf, hrest⟩
  have hedges : s₁.edges = s₂.edges := sorted_mem_ext _ _ hinv₁.1 hinv₂.1 hmem
  refine ⟨?_, ?_, ?_⟩
  · rw [hm₁, hm₂]
    simp [hedges]
  · rw [hm₁]
    show (chunkPairs (flattenEdges s₁.edges)).Pairwise pairLt
    rw [chunkPairs_flattenEdges]
    exact hinv₁.1
  · rw [hm₁]
    show ∀ p ∈ chunkPairs (flattenEdges s₁.edges), p.1 ≤ p.2
    rw [chunkPairs_flattenEdges]
    exact hinv₁.2

theorem loadOBJ_edgeIndices_sorted_and_face_order_independent_witness :
    meshTwoFaces.edgeIndices = meshTwoFacesSwapped.edgeIndices ∧
    (chunkPairs meshTwoFaces.edgeIndices).Pairwise pairLt ∧
    ∀ p ∈ chunkPairs meshTwoFaces.edgeIndices, p.1 ≤ p.2 :=
  loadOBJ_edgeIndices_sorted_and_face_order_independent linesTwoFaces linesTwoFacesSwapped
    meshTwoFaces meshTwoFacesSwapped (by decide) (by decide) (by decide)

/-- C5 counterexample: the face line `f 1 2 1` has 3 vertex tokens, yet
the edge set receives only 2 distinct edges ((0,0) and (0,1)), so
`edgeIndices` has length 4 rather than the claimed `2 * 3`. -/
theorem loadOBJ_repeated_token_face_counterexample :
    loadOBJ linesRepeatedFace =
      .ok { vertices := [0, 0, 0, 1, 0, 0], indices := [0, 1, 0],
            edgeIndices := [0, 0, 0, 1], color := (0, 0, 1) } ∧
    ¬ ([0, 0, 0, 1] : List ℕ).length = 2 * 3 := by decide

/-- C5 (amended): a face with `n ≥ 3` vertex tokens emits exactly one
triangle — the face's first three token indices in file order — and
inserts its `n` cyclic-adjacency pairs (including the wrap-around pair)
into the edge set; when the face's tokens are pairwise distinct these
are `n` distinct edges, so a lone triangular face yields 3 edges and a
lone quad face yields 4 edges. -/
theorem processFace_one_triangle_and_cyclic_edges (face : List ℕ)
    (vs : List ℚ) (ts : List ℕ) (h3 : 3 ≤ face.length) :
    (processFace face ⟨vs, ts, []⟩).indices =
      ts ++ [face.getD 0 0, face.getD 1 0, face.getD 2 0] ∧
    (face.Nodup → (processFace face ⟨vs, ts, []⟩).edges.length = face.length) := by
  constructor
  · simp [processFace, h3]
  · intro hnd
    simp only [processFace]
    rw [length_foldl_edgeInsert_of_nodup _ (faceEdges_nodup face h3 hnd),
      faceEdges_length]

theorem processFace_one_triangle_and_cyclic_edges_witness :
    (processFace [0, 1, 2, 3] ⟨[], [], []⟩).indices = [0, 1, 2] ∧
    (processFace [0, 1, 2, 3] ⟨[], [], []⟩).edges.length = 4 := by
  have h := processFace_one_triangle_and_cyclic_edges [0, 1, 2, 3] [] [] (by decide)
  exact ⟨h.1.trans (by decide), (h.2 (by decide)).trans (by decide)⟩

/-- C6: a missing or unreadable path leaves the stream in a failed
state, so the line loop runs zero times and `loadOBJ` returns the empty
mesh (empty `vertices` and `indices`) rather than an error. -/
theorem loadOBJ_missing_file_empty_mesh :
    loadOBJMissingFile =
      .ok { vertices := [], indices := [], edgeIndices := [], color := (0, 0, 1) } := by
  decide

/-- C7 counterexample: the vertex line `v 1 2 x` has a token (`x`) that
cannot be parsed as a float, yet loading does not fail — the failed
extraction writes `0` and `loadOBJ` returns a mesh. -/
theorem loadOBJ_malformed_vertex_line_no_error :
    loadOBJ linesBadVertex =
      .ok { vertices := [1, 2, 0], indices := [], edgeIndices := [],
            color := (0, 0, 1) } := by decide

/-- C7 (amended): a face-line token whose pre-slash part does not parse
as an unsigned integer aborts the whole load with a parse error (the
uncaught `std::stoul` exception, which carries neither the line's
content nor its number); no partial mesh is returned.  Malformed
numbers on vertex lines do not fail (see the counterexample). -/
theorem loadOBJ_bad_face_token_aborts (ls : List (List Char)) (l : List Char)
    (hl : l ∈ ls) (hf : l.take 2 = ['f', ' ']) (t : List Char)
    (ht : t ∈ tokens (l.drop 2)) (e : ParseErr) (he : faceIndex t = .error e) :
    ∃ e', loadOBJ ls = .error e' := by
  rcases processLines_error_of_bad_face_line ls l hl hf t ht e he ⟨[], [], []⟩
    with ⟨e', hp⟩
  exact ⟨e', by simp [loadOBJ, hp]⟩

theorem loadOBJ_bad_face_token_aborts_witness :
    ∃ e', loadOBJ linesBadFace = .error e' :=
  loadOBJ_bad_face_token_aborts linesBadFace (chars (r"f x")) (by decide) (by decide)
    (chars (r"x")) (by decide) .invalidArgument (by decide)

/-- C8 counterexample: the two-token face line `f 1 2` contributes the
edge (0,1) to the mesh, so a degenerate face is not skipped silently
and does contribute to `edgeIndices`. -/
theorem loadOBJ_short_face_adds_edge :
    loadOBJ linesShortFace =
      .ok { vertices := [0, 0, 0, 1, 0, 0], indices := [], edgeIndices := [0, 1],
            color := (0, 0, 1) } ∧
    ¬ ([0, 1] : List ℕ) = [] := by decide

/-- C8 (amended): a face line with fewer than 3 vertex tokens emits no
triangle indices, but its cyclic-adjacency pairs are still inserted
into the edge set (the edge loop runs unconditionally); no skipped-face
tally exists anywhere in the loader. -/
theorem processFace_short_face_no_triangle_but_edges (face : List ℕ)
    (s : ObjState) (hlt : face.length < 3) :
    (processFace face s).indices = s.indices ∧
    ∀ p, p ∈ (processFace face s).edges ↔ p ∈ faceEdges face ∨ p ∈ s.edges := by
  constructor
  · have hn : ¬ 3 ≤ face.length := by omega
    simp [processFace, hn]
  · intro p
    simp only [processFace]
    exact mem_foldl_edgeInsert _ _ p

theorem processFace_short_face_no_triangle_but_edges_witness :
    (processFace [0, 1] ⟨[], [], []⟩).indices = [] ∧
    ((0, 1) ∈ (processFace [0, 1] ⟨[], [], []⟩).edges ↔
      (0, 1) ∈ faceEdges [0, 1] ∨ (0, 1) ∈ ([] : List (ℕ × ℕ))) := by
  have h := processFace_short_face_no_triangle_but_edges [0, 1] ⟨[], [], []⟩ (by decide)
  exact ⟨h.1, h.2 (0, 1)⟩

/-- C9: every mesh `loadOBJ` returns — including for a missing or
material-less file — has `color = (0, 0, 1)` (the hardcoded pure-blue
fallback), so all three channels lie in [0, 1] and `color` is never
undefined. -/
theorem loadOBJ_color_fallback_blue (ls : List (List Char)) (m : Mesh)
    (h : loadOBJ ls = .ok m) :
    m.color = (0, 0, 1) ∧ 0 ≤ m.color.1 ∧ m.color.1 ≤ 1 ∧
      0 ≤ m.color.2.1 ∧ m.color.2.1 ≤ 1 ∧ 0 ≤ m.color.2.2 ∧ m.color.2.2 ≤ 1 := by
  rcases loadOBJ_ok_inv ls m h with ⟨s, _, hm⟩
  rw [hm]
  norm_num

theorem loadOBJ_color_fallback_blue_witness :
    ({ vertices := [], indices := [], edgeIndices := [], color := (0, 0, 1) } : Mesh).color = (0, 0, 1) ∧
      0 ≤ ({ vertices := [], indices := [], edgeIndices := [], color := (0, 0, 1) } : Mesh).color.1 ∧
      ({ vertices := [], indices := [], edgeIndices := [], color := (0, 0, 1) } : Mesh).color.1 ≤ 1 ∧
      0 ≤ ({ vertices := [], indices := [], edgeIndices := [], color := (0, 0, 1) } : Mesh).color.2.1 ∧
      ({ vertices := [], indices := [], edgeIndices := [], color := (0, 0, 1) } : Mesh).color.2.1 ≤ 1 ∧
      0 ≤ ({ vertices := [], indices := [], edgeIndices := [], color := (0, 0, 1) } : Mesh).color.2.2 ∧
      ({ vertices := [], indices := [], edgeIndices := [], color := (0, 0, 1) } : Mesh).color.2.2 ≤ 1 :=
  loadOBJ_color_fallback_blue [] _ (by decide)

/-- C10: a face line containing the token `0` makes the 1-based-to-0-
based conversion wrap around: `stoul("0") - 1` in unsigned arithmetic,
narrowed to `unsigned int`, yields 4294967295, which lands in the
triangle and edge index lists and is not below `vertices.length / 3`. -/
theorem loadOBJ_zero_token_wraps_to_uint_max :
    loadOBJ linesZeroToken =
      .ok { vertices := [0, 0, 0, 1, 0, 0, 0, 1, 0], indices := [4294967295, 1, 2],
            edgeIndices := [1, 2, 1, 4294967295, 2, 4294967295], color := (0, 0, 1) } ∧
    4294967295 ∈ ([4294967295, 1, 2] : List ℕ) ∧
    ¬ 4294967295 < ([0, 0, 0, 1, 0, 0, 0, 1, 0] : List ℚ).length / 3 := by decide
